import Mathlib

/-! Verification of the scientometric search-engine simulation core.

Shallow embedding of the weighted multi-criteria ranking and page-based
probabilistic sampling engine (`src/models/simulation_engine.py`,
`VirtualAggregator`) and of the resumable batch orchestrator
(`src/models/experiment.py`, `Experiment`).

Modelling conventions:
* Candidate identifiers are `String` (the code maps every id through `str`).
* Floating-point values are modelled by real numbers `ℝ`.
* The pre-fit global scaler (`models/global_scaler.pkl`, a column-wise
  `MinMaxScaler` fitted offline by `src/scripts/prepare_global_scaler.py`)
  is modelled as three abstract column transforms, one per feature column.
* The two random primitives used inside `rank_and_sample` are modelled by
  oracle streams: `npChoice t` abstracts the index drawn by
  `np.random.choice(m, p=page_distribution)` at loop iteration `t`
  (its support is exactly the indices below `m`, since every entry of the
  distribution is positive), and `pyChoice t` abstracts the index drawn by
  `random.choice(page)`.  Quantifying over all oracles covers every
  possible behaviour of the real generators; fixing the oracles makes a
  run concrete.  The categorical distribution the code hands to
  `np.random.choice` is embedded separately as `distribution_function` /
  `pageDist`.
-/

namespace SciSim

/-! ## Raw retrieval results and candidate preparation
(`VirtualAggregator.prepare_candidates`) -/

/-- Raw ChromaDB query response for one query, restricted to the fields
`prepare_candidates` reads: parallel lists of ids, distances and the three
metadata columns (`year`, `n_citation`, `gov_score`). -/
structure RawResults where
  ids : List String
  distances : List ℝ
  years : List ℝ
  n_citations : List ℝ
  gov_scores : List ℝ

/-- The pre-fit global scaler, modelled as one transform per feature
column (a `MinMaxScaler` transforms each column independently). -/
structure Scaler where
  fYear : ℝ → ℝ
  fCit : ℝ → ℝ
  fGov : ℝ → ℝ

/-- Output of `prepare_candidates`: ids, similarities, and the three
scaled feature columns (the code stores them as the columns of the
`scaled` matrix). -/
structure Prepared where
  ids : List String
  sim : List ℝ
  scaledYear : List ℝ
  scaledCit : List ℝ
  scaledGov : List ℝ

/-- Embedding of `VirtualAggregator.prepare_candidates` (simulation_engine.py, lines
151-173): `similarities = np.maximum(0, 1 - distances)`; citation counts
are passed through `np.log1p` before the global scaling transform; the
year and government-score columns are scaled directly. -/
noncomputable def prepare_candidates (sc : Scaler) (r : RawResults) : Prepared where
  ids := r.ids
  sim := r.distances.map fun d => max 0 (1 - d)
  scaledYear := r.years.map sc.fYear
  scaledCit := r.n_citations.map fun c => sc.fCit (Real.log (1 + c))
  scaledGov := r.gov_scores.map sc.fGov

/-- Criterion weights `pn = [similarity, year, citation count, government
score]` of one configuration. -/
structure Weights where
  wSim : ℝ
  wYear : ℝ
  wCit : ℝ
  wGov : ℝ

/-- The vectorised score computation at the top of
`VirtualAggregator.rank_and_sample` (lines 188-193):
`pn[0]*sim + pn[1]*scaled[:,0] + pn[2]*scaled[:,1] + pn[3]*scaled[:,2]`,
read off elementwise over the aligned candidate arrays. -/
def scoresOf (w : Weights) (c : Prepared) : List ℝ :=
  (List.range c.ids.length).map fun i =>
    w.wSim * c.sim.getD i 0 + w.wYear * c.scaledYear.getD i 0 +
      w.wCit * c.scaledCit.getD i 0 + w.wGov * c.scaledGov.getD i 0

/-! ## Sorting (`np.argsort(-scores)`, line 195)

`np.argsort` with its default kind (quicksort/introsort) returns some
permutation of the index range along which the key array is sorted; the
relative order of equal keys is NOT specified (only `kind=stable` or
`mergesort` guarantee stability).  The embedding therefore treats the
sort nondeterministically: any index permutation along which the scores
are non-increasing is an admissible result of line 195. -/

/-- Predicate: `idx` is an admissible result of `np.argsort(-scores)`: a permutation
of `range scores.length` along which `scores` is non-increasing. -/
def IsArgsortDesc (scores : List ℝ) (idx : List ℕ) : Prop :=
  idx.Perm (List.range scores.length) ∧
    (idx.map fun i => scores.getD i 0).Sorted (· ≥ ·)

/-- Stability of a descending argsort: positions holding equal scores
appear in increasing original-index order. -/
def StableDesc (scores : List ℝ) (idx : List ℕ) : Prop :=
  ∀ p q : ℕ, p < q → q < idx.length →
    scores.getD (idx.getD p 0) 0 = scores.getD (idx.getD q 0) 0 →
    idx.getD p 0 < idx.getD q 0

/-- Embedding of `ranked_ids = [candidates["ids"][i] for i in sorted_indices]`
(line 196). -/
def ranked_ids (c : Prepared) (idx : List ℕ) : List String :=
  idx.map fun i => c.ids.getD i ""

/-- The score sequence read along a ranking. -/
def rankedScores (w : Weights) (c : Prepared) (idx : List ℕ) : List ℝ :=
  idx.map fun i => (scoresOf w c).getD i 0

/-! ## Pagination (lines 198-201)

`pages = [ranked_ids[i:i + N] for i in range(0, len(ranked_ids), N)]`.
For `N = 0` the Python expression raises `ValueError` (zero step); the
configuration invariant is `N > 0`, and the embedding returns `[]` for
`N = 0` so the function stays total. -/

/-- Chunking recursion, fuelled by the list length. -/
def chunksGo {α : Type} (N : ℕ) : ℕ → List α → List (List α)
  | 0, _ => []
  | _ + 1, [] => []
  | fuel + 1, x :: xs => (x :: xs).take N :: chunksGo N fuel ((x :: xs).drop N)

/-- Partition a list into consecutive chunks of size `N` (last chunk may
be shorter), as in line 198-201 of the source. -/
def paginate {α : Type} (N : ℕ) (l : List α) : List (List α) :=
  if N = 0 then [] else chunksGo N l.length l

/-! ## The sampling loop (lines 203-223) -/

/-- Embedding of `active_indices = [idx for idx, p in enumerate(working_pages) if
len(p) > 0]` (lines 207-209). -/
def activeIndices (pages : List (List String)) : List ℕ :=
  (List.range pages.length).filter fun i => !(pages.getD i []).isEmpty

/-- Number of currently active pages, the argument the code passes to
`distribution_function` each iteration (line 213). -/
def activeCount (pages : List (List String)) : ℕ :=
  (activeIndices pages).length

/-- Line 131 of `VirtualAggregator.distribution_function`:
`distribution = np.exp(-np.arange(1, m + 1))`, i.e. the entry at 0-based
position `i` is `exp(-(i+1))`. -/
noncomputable def rawDist (m : ℕ) : List ℝ :=
  (List.range m).map fun i : ℕ => Real.exp (-((i : ℝ) + 1))

/-- Embedding of `VirtualAggregator.distribution_function` (lines 119-133): the raw
exponential weights of line 131, normalised in place by their sum
(line 132, `distribution /= distribution.sum()`). -/
noncomputable def distribution_function (m : ℕ) : List ℝ :=
  (rawDist m).map fun x => x / (rawDist m).sum

/-- The page distribution the code computes at line 213 for the current
working pages: `distribution_function(len(active_indices))`. -/
noncomputable def pageDist (pages : List (List String)) : List ℝ :=
  distribution_function (activeCount pages)

/-- Oracle streams abstracting the two random draws of one loop
iteration: `npChoice t` for `np.random.choice(m, p=...)` and
`pyChoice t` for `random.choice(page)` at iteration `t`. -/
structure Oracles where
  npChoice : ℕ → ℕ
  pyChoice : ℕ → ℕ

/-- The relative (active-rank) page index drawn at iteration `t`
(line 214); reduction mod the active count keeps the oracle inside the
support of `np.random.choice(len(active_indices), p=page_distribution)`. -/
def chosenRank (o : Oracles) (t : ℕ) (pages : List (List String)) : ℕ :=
  o.npChoice t % activeCount pages

/-- Embedding of `abs_page_idx = active_indices[rel_idx]` (line 215). -/
def chosenPageIdx (o : Oracles) (t : ℕ) (pages : List (List String)) : ℕ :=
  (activeIndices pages).getD (chosenRank o t pages) 0

/-- Embedding of `page = working_pages[abs_page_idx]` (line 217). -/
def chosenPage (o : Oracles) (t : ℕ) (pages : List (List String)) :
    List String :=
  pages.getD (chosenPageIdx o t pages) []

/-- Embedding of `paper_id = random.choice(page)` (line 218): the paper at the index
the `pyChoice` oracle draws inside the chosen page. -/
def chosenPaper (o : Oracles) (t : ℕ) (pages : List (List String)) : String :=
  (chosenPage o t pages).getD
    (o.pyChoice t % (chosenPage o t pages).length) ""

/-- One iteration of the `for _ in range(self.k)` loop (lines 206-221):
compute the active pages, stop if none remain (`break`), otherwise draw a
page, draw a paper uniformly inside it (`random.choice`), record it and
remove it from its page (`list.remove`, first occurrence). -/
def sampleStep (o : Oracles) (t : ℕ) (pages : List (List String)) :
    Option (String × List (List String)) :=
  if activeIndices pages = [] then none
  else
    some (chosenPaper o t pages,
      pages.set (chosenPageIdx o t pages)
        ((chosenPage o t pages).erase (chosenPaper o t pages)))

/-- The whole sampling loop: `fuel` remaining iterations (initially `k`),
`t` the current iteration index, `acc` the reversed list of papers
selected so far (`selected_papers`). -/
def sampleLoop (o : Oracles) : ℕ → ℕ → List (List String) → List String → List String
  | 0, _, _, acc => acc.reverse
  | fuel + 1, t, pages, acc =>
    match sampleStep o t pages with
    | none => acc.reverse
    | some (paper, pages') => sampleLoop o fuel (t + 1) pages' (paper :: acc)

/-- Embedding of `rank_and_sample` from the ranked id list on: paginate, loop `k`
times, return `collections.Counter(selected_papers)` — a Counter is a
multiset of identifiers. -/
def rank_and_sample_core (o : Oracles) (N k : ℕ) (ranked : List String) :
    Multiset String :=
  (sampleLoop o k 0 (paginate N ranked) [] : Multiset String)

/-- Total number of candidates still held by the working pages. -/
def totalCount (pages : List (List String)) : ℕ :=
  (pages.map List.length).sum

/-- Multiset of candidates held by the working pages. -/
def pagesMS (pages : List (List String)) : Multiset String :=
  (pages.map fun p : List String => (p : Multiset String)).sum

/-! ## Checkpointing and resume (`Experiment.health_check`,
`Experiment.run_experiment`, experiment.py)

A per-configuration result log is modelled by its line count (`ℕ`), or
`none` when `data/results/<idx>/results.csv` does not exist.  `logs idx`
is the log of configuration `idx`; `baseExists` says whether the base
directory `data/results` exists (if any log file exists its base
directory does too). -/

/-- The `controll_sum` entry computed for an existing log file
(experiment.py, lines 237-239): `line_count = (number of lines) - 1`
over `ℤ`, then `max(0, line_count)`. -/
def controll_sum (lines : ℕ) : ℤ :=
  max 0 ((lines : ℤ) - 1)

/-- Embedding of `Experiment.health_check` (lines 221-243): returns the empty mapping
when `data/results` does not exist; otherwise an entry for every
configuration index below `numSettings` — the clamped line count for an
existing log, `0` for a missing one (`FileNotFoundError` branch). -/
def health_check (baseExists : Bool) (logs : ℕ → Option ℕ) (numSettings : ℕ)
    (idx : ℕ) : Option ℤ :=
  if baseExists ∧ idx < numSettings then
    some (match logs idx with
          | some n => controll_sum n
          | none => 0)
  else none

/-- The resume offset of `run_experiment` (line 87):
`int(progress_status.get(0, {}).get("controll_sum", 0) or 0)` — the
entry of configuration index 0, defaulting to 0 when health_check has no
entry for it (`or 0` only maps a falsy 0 to 0). -/
def resume_offset (baseExists : Bool) (logs : ℕ → Option ℕ)
    (numSettings : ℕ) : ℤ :=
  (health_check baseExists logs numSettings 0).getD 0

/-- The global query-index range processed by one run (lines 95-96):
`start_index = already_saved`, `end_index = min(start_index + batch,
len(self.queries))`; the loop then walks `queries[start:end]` with
`global_query_id = start_index + query_offset`. -/
def batch_range (alreadySaved batch numQueries : ℕ) : ℕ × ℕ :=
  (alreadySaved, min (alreadySaved + batch) numQueries)

/-! ## Global distribution accumulator (`Experiment.run_experiment`
lines 140-145, `Experiment.save_distribution` lines 203-216)

`distribution_dict` is a Python dict keyed by `str(config)`; it is
modelled as an insertion-ordered association list from key to Counter
(multiset).  The per-query result of one configuration is its
`step_distribution` multiset. -/

/-- One accumulator update (lines 141-145): `Counter.update` adds the
step counts onto the existing entry, a missing key is inserted with the
step result itself. -/
def update_global : List (String × Multiset String) → String →
    Multiset String → List (String × Multiset String)
  | [], key, sd => [(key, sd)]
  | (k, v) :: rest, key, sd =>
    if k = key then (k, v + sd) :: rest
    else (k, v) :: update_global rest key sd

/-- Dict lookup with the additive default: a key not yet present holds
the empty Counter. -/
def lookupG : List (String × Multiset String) → String → Multiset String
  | [], _ => 0
  | (k, v) :: rest, key => if k = key then v else lookupG rest key

/-- The inner configuration loop of one processed query (lines 119-145)
restricted to its effect on `distribution_dict`: every configuration in
turn merges its step result under its `str(config)` key. -/
def process_query (g : List (String × Multiset String))
    (updates : List (String × Multiset String)) :
    List (String × Multiset String) :=
  updates.foldl (fun acc kv => update_global acc kv.1 kv.2) g

/-- Embedding of `Experiment.save_distribution` (lines 203-216): `DataFrame.to_csv`
with the default write mode replaces the file content with the full
serialised snapshot of `distribution_dict`; the previous file state is
ignored, nothing is appended. -/
def save_distribution (_previous : Option (List (String × Multiset String)))
    (g : List (String × Multiset String)) :
    Option (List (String × Multiset String)) :=
  some g

/-! ## Helper lemmas -/

/-- Reading `getD` at an in-bounds index is `get`. -/
theorem getD_eq_get {α : Type} (l : List α) (d : α) {i : ℕ} (h : i < l.length) :
    l.getD i d = l.get ⟨i, h⟩ := by
  simp [List.getD_eq_getElem?_getD, List.getElem?_eq_getElem h, List.get_eq_getElem]

/-- Reading every index of a list back through `getD` reproduces it. -/
theorem range_map_getD {α : Type} (l : List α) (d : α) :
    (List.range l.length).map (fun i => l.getD i d) = l := by
  apply List.ext_getElem
  · simp
  · intro i h1 h2
    simp only [List.getElem_map, List.getElem_range]
    rw [getD_eq_get l d h2]
    simp [List.get_eq_getElem]

/-- Summing a set-updated list: replacing the `i`-th entry trades its
image for the new entry's image. -/
theorem sum_map_set {α M : Type} [AddCommMonoid M] (f : α → M) :
    ∀ (l : List α) (i : ℕ) (a : α) (h : i < l.length),
      ((l.set i a).map f).sum + f (l.get ⟨i, h⟩) = (l.map f).sum + f a
  | x :: xs, 0, a, _ => by
    simp [List.set, add_comm, add_assoc, add_left_comm]
  | x :: xs, i + 1, a, h => by
    have ih := sum_map_set f xs i a (by simpa using h)
    simp only [List.set, List.map_cons, List.sum_cons, List.get_cons_succ]
    rw [add_assoc, add_assoc, ih]

/-- Dividing every entry of a list divides the sum. -/
theorem sum_map_div (l : List ℝ) (S : ℝ) :
    (l.map fun x => x / S).sum = l.sum / S := by
  induction l with
  | nil => simp
  | cons x xs ih => simp [ih, add_div]

/-- Chunks produced by `chunksGo` concatenate back to the original list. -/
theorem chunksGo_flatten {α : Type} {N : ℕ} (hN : 0 < N) :
    ∀ (fuel : ℕ) (l : List α), l.length ≤ fuel → (chunksGo N fuel l).flatten = l
  | 0, l, h => by
    have : l = [] := List.eq_nil_of_length_eq_zero (Nat.le_zero.mp h)
    simp [this, chunksGo]
  | fuel + 1, [], _ => by simp [chunksGo]
  | fuel + 1, x :: xs, h => by
    have hdrop : ((x :: xs).drop N).length ≤ fuel := by
      simp only [List.length_drop]
      have hlen : (x :: xs).length ≤ fuel + 1 := h
      omega
    have ih := chunksGo_flatten hN fuel ((x :: xs).drop N) hdrop
    simp [chunksGo, ih, List.take_append_drop]

/-- For a positive page size, the pages partition the ranked list. -/
theorem paginate_flatten {α : Type} {N : ℕ} (hN : 0 < N) (l : List α) :
    (paginate N l).flatten = l := by
  unfold paginate
  rw [if_neg (Nat.pos_iff_ne_zero.mp hN)]
  exact chunksGo_flatten hN l.length l le_rfl

/-- A page size at least the list length produces a single page. -/
theorem paginate_single {α : Type} {N : ℕ} (l : List α) (h0 : 0 < l.length)
    (hN : l.length ≤ N) : paginate N l = [l] := by
  unfold paginate
  have hNpos : N ≠ 0 := by omega
  rw [if_neg hNpos]
  cases l with
  | nil => simp at h0
  | cons x xs =>
    have hlc : (x :: xs).length = xs.length + 1 := rfl
    rw [hlc]
    simp only [chunksGo]
    rw [List.take_of_length_le hN, List.drop_of_length_le hN]
    cases hxs : xs.length <;> simp [chunksGo]

/-- Membership in the active-page index list. -/
theorem mem_activeIndices {pages : List (List String)} {i : ℕ} :
    i ∈ activeIndices pages ↔ i < pages.length ∧ pages.getD i [] ≠ [] := by
  simp [activeIndices, List.mem_filter, List.mem_range, List.isEmpty_iff]

/-- No active page means every page is empty. -/
theorem activeIndices_eq_nil_iff {pages : List (List String)} :
    activeIndices pages = [] ↔ ∀ p ∈ pages, p = [] := by
  constructor
  · intro h p hp
    by_contra hne
    obtain ⟨i, hi, hget⟩ := List.getElem_of_mem hp
    have : i ∈ activeIndices pages := by
      refine mem_activeIndices.mpr ⟨hi, ?_⟩
      rw [getD_eq_get pages [] hi]
      simpa [List.get_eq_getElem, hget] using hne
    simp [h] at this
  · intro h
    rw [List.eq_nil_iff_forall_not_mem]
    intro i hi
    rcases mem_activeIndices.mp hi with ⟨hlen, hne⟩
    apply hne
    rw [getD_eq_get pages [] hlen]
    exact h _ (List.get_mem pages i hlen)

/-- All pages empty exactly when the remaining pool is exhausted. -/
theorem totalCount_eq_zero_iff {pages : List (List String)} :
    totalCount pages = 0 ↔ ∀ p ∈ pages, p = [] := by
  simp [totalCount, List.sum_eq_zero_iff, List.length_eq_zero]

/-! ## Facts about one sampling iteration -/

/-- The drawn relative index is a valid rank into the active pages. -/
theorem chosenRank_lt {pages : List (List String)}
    (h : activeIndices pages ≠ []) (o : Oracles) (t : ℕ) :
    chosenRank o t pages < activeCount pages :=
  Nat.mod_lt _ (List.length_pos.mpr h)

/-- The drawn absolute page index is one of the active pages: the rank is
interpreted inside the current active set, not the original page list. -/
theorem chosenPageIdx_mem {pages : List (List String)}
    (h : activeIndices pages ≠ []) (o : Oracles) (t : ℕ) :
    chosenPageIdx o t pages ∈ activeIndices pages := by
  unfold chosenPageIdx
  rw [getD_eq_get _ _ (chosenRank_lt h o t)]
  exact List.get_mem _ _ _

/-- The chosen page is non-empty. -/
theorem chosenPage_ne_nil {pages : List (List String)}
    (h : activeIndices pages ≠ []) (o : Oracles) (t : ℕ) :
    chosenPage o t pages ≠ [] :=
  (mem_activeIndices.mp (chosenPageIdx_mem h o t)).2

/-- The drawn paper is an element of the chosen page. -/
theorem chosenPaper_mem {pages : List (List String)}
    (h : activeIndices pages ≠ []) (o : Oracles) (t : ℕ) :
    chosenPaper o t pages ∈ chosenPage o t pages := by
  unfold chosenPaper
  have hpos : 0 < (chosenPage o t pages).length :=
    List.length_pos.mpr (chosenPage_ne_nil h o t)
  rw [getD_eq_get _ _ (Nat.mod_lt _ hpos)]
  exact List.get_mem _ _ _

/-- A successful iteration consumes exactly one candidate from the pool
and moves exactly that paper from the pages into the selection. -/
theorem sampleStep_some {pages : List (List String)}
    (h : activeIndices pages ≠ []) (o : Oracles) (t : ℕ) :
    ∃ pages', sampleStep o t pages = some (chosenPaper o t pages, pages') ∧
      totalCount pages' + 1 = totalCount pages ∧
      pagesMS pages' + {chosenPaper o t pages} = pagesMS pages := by
  have hlen : chosenPageIdx o t pages < pages.length :=
    (mem_activeIndices.mp (chosenPageIdx_mem h o t)).1
  have hget : pages.get ⟨chosenPageIdx o t pages, hlen⟩ = chosenPage o t pages :=
    (getD_eq_get pages [] hlen).symm
  have hpmem := chosenPaper_mem h o t
  have hppos : 0 < (chosenPage o t pages).length :=
    List.length_pos.mpr (chosenPage_ne_nil h o t)
  refine ⟨pages.set (chosenPageIdx o t pages)
      ((chosenPage o t pages).erase (chosenPaper o t pages)), ?_, ?_, ?_⟩
  · unfold sampleStep
    rw [if_neg h]
  · have hsum := sum_map_set List.length pages (chosenPageIdx o t pages)
      ((chosenPage o t pages).erase (chosenPaper o t pages)) hlen
    rw [hget, List.length_erase_of_mem hpmem] at hsum
    unfold totalCount
    omega
  · unfold pagesMS
    have hsum := sum_map_set (α := List String) (M := Multiset String)
      (fun p => (p : Multiset String)) pages (chosenPageIdx o t pages)
      ((chosenPage o t pages).erase (chosenPaper o t pages)) hlen
    rw [hget] at hsum
    have hperm : (chosenPage o t pages : Multiset String) =
        chosenPaper o t pages ::ₘ
          ((chosenPage o t pages).erase (chosenPaper o t pages) : Multiset String) :=
      Multiset.coe_eq_coe.mpr (List.perm_cons_erase hpmem)
    rw [hperm] at hsum
    have h2 : (List.map (fun p : List String => (p : Multiset String))
          (pages.set (chosenPageIdx o t pages)
            ((chosenPage o t pages).erase (chosenPaper o t pages)))).sum +
          ({chosenPaper o t pages} +
            ((chosenPage o t pages).erase (chosenPaper o t pages) : Multiset String)) =
        (List.map (fun p : List String => (p : Multiset String)) pages).sum +
          ((chosenPage o t pages).erase (chosenPaper o t pages) : Multiset String) := by
      rw [Multiset.singleton_add]
      exact hsum
    rw [← add_assoc] at h2
    exact add_right_cancel h2

/-- The loop stops exactly when every page is empty. -/
theorem sampleStep_eq_none_iff {pages : List (List String)}
    (o : Oracles) (t : ℕ) :
    sampleStep o t pages = none ↔ activeIndices pages = [] := by
  unfold sampleStep
  by_cases h : activeIndices pages = [] <;> simp [h]

/-! ## Facts about the whole sampling loop -/

/-- Exact draw count: the loop produces one paper per iteration until
either the fuel (`k`) or the candidate pool runs out. -/
theorem sampleLoop_length (o : Oracles) :
    ∀ (fuel t : ℕ) (pages : List (List String)) (acc : List String),
      (sampleLoop o fuel t pages acc).length =
        acc.length + min fuel (totalCount pages)
  | 0, t, pages, acc => by simp [sampleLoop]
  | fuel + 1, t, pages, acc => by
    rw [sampleLoop]
    by_cases h : activeIndices pages = []
    · have h0 : totalCount pages = 0 :=
        totalCount_eq_zero_iff.mpr (activeIndices_eq_nil_iff.mp h)
      rw [(sampleStep_eq_none_iff o t).mpr h]
      simp [h0]
    · obtain ⟨pages', hstep, hcount, _⟩ := sampleStep_some h o t
      rw [hstep]
      rw [sampleLoop_length o fuel (t + 1) pages' (chosenPaper o t pages :: acc)]
      have : min (fuel + 1) (totalCount pages) = min fuel (totalCount pages') + 1 := by
        omega
      simp only [List.length_cons]
      omega

/-- Conservation: whatever the loop returns is the accumulator plus a
sub-multiset of the candidates the pages held at entry. -/
theorem sampleLoop_subset (o : Oracles) :
    ∀ (fuel t : ℕ) (pages : List (List String)) (acc : List String),
      ∃ s : Multiset String,
        (sampleLoop o fuel t pages acc : Multiset String) = ↑acc + s ∧
          s ≤ pagesMS pages
  | 0, t, pages, acc =>
    ⟨0, by simp [sampleLoop, Multiset.coe_eq_coe, List.reverse_perm], zero_le _⟩
  | fuel + 1, t, pages, acc => by
    rw [sampleLoop]
    by_cases h : activeIndices pages = []
    · rw [(sampleStep_eq_none_iff o t).mpr h]
      exact ⟨0, by simp [Multiset.coe_eq_coe, List.reverse_perm], zero_le _⟩
    · obtain ⟨pages', hstep, _, hms⟩ := sampleStep_some h o t
      rw [hstep]
      obtain ⟨s', hs', hle'⟩ :=
        sampleLoop_subset o fuel (t + 1) pages' (chosenPaper o t pages :: acc)
      refine ⟨{chosenPaper o t pages} + s', ?_, ?_⟩
      · rw [hs', Multiset.singleton_add, Multiset.add_cons, ← Multiset.cons_add,
          Multiset.cons_coe]
      · calc {chosenPaper o t pages} + s'
            ≤ {chosenPaper o t pages} + pagesMS pages' := by
              exact add_le_add_left hle' _
          _ = pagesMS pages := by rw [add_comm]; exact hms

/-! ## Facts about the global-distribution accumulator -/

/-- Updating a key adds the step counts onto exactly that entry. -/
theorem lookupG_update_self :
    ∀ (g : List (String × Multiset String)) (key : String)
      (sd : Multiset String),
      lookupG (update_global g key sd) key = lookupG g key + sd
  | [], key, sd => by simp [update_global, lookupG]
  | (k, v) :: rest, key, sd => by
    by_cases hk : k = key
    · subst hk
      simp [update_global, lookupG]
    · simp only [update_global, if_neg hk, lookupG]
      exact lookupG_update_self rest key sd

/-- Updating a key leaves every other entry unchanged. -/
theorem lookupG_update_other :
    ∀ (g : List (String × Multiset String)) (key key' : String)
      (sd : Multiset String), key' ≠ key →
      lookupG (update_global g key sd) key' = lookupG g key'
  | [], key, key', sd, hne => by
    simp [update_global, lookupG, if_neg (Ne.symm hne)]
  | (k, v) :: rest, key, key', sd, hne => by
    by_cases hk : k = key
    · subst hk
      simp only [update_global, if_pos rfl, lookupG]
      rw [if_neg (Ne.symm hne), if_neg (Ne.symm hne)]
    · simp only [update_global, if_neg hk, lookupG]
      by_cases hk' : k = key'
      · rw [if_pos hk', if_pos hk']
      · rw [if_neg hk', if_neg hk']
        exact lookupG_update_other rest key key' sd hne

/-- Folding a whole query's updates over keys that avoid `key` leaves
`key`'s entry unchanged. -/
theorem lookupG_process_of_not_mem :
    ∀ (updates : List (String × Multiset String))
      (g : List (String × Multiset String)) (key : String),
      key ∉ updates.map Prod.fst →
      lookupG (process_query g updates) key = lookupG g key
  | [], _, _, _ => rfl
  | (k, sd) :: rest, g, key, h => by
    simp only [List.map_cons, List.mem_cons] at h
    push_neg at h
    show lookupG (process_query (update_global g k sd) rest) key = lookupG g key
    rw [lookupG_process_of_not_mem rest (update_global g k sd) key h.2]
    exact lookupG_update_other g k key sd h.1

/-- A single update never decreases an entry. -/
theorem lookupG_update_mono (g : List (String × Multiset String))
    (key key' : String) (sd : Multiset String) :
    lookupG g key' ≤ lookupG (update_global g key sd) key' := by
  by_cases hk : key' = key
  · subst hk
    rw [lookupG_update_self]
    exact Multiset.le_add_right _ _
  · rw [lookupG_update_other g key key' sd hk]

/-- Accumulation over any sequence of updates is monotone: counts are
never reset or decremented. -/
theorem lookupG_process_mono :
    ∀ (updates : List (String × Multiset String))
      (g : List (String × Multiset String)) (key : String),
      lookupG g key ≤ lookupG (process_query g updates) key
  | [], _, _ => le_rfl
  | (k, sd) :: rest, g, key => by
    show lookupG g key ≤ lookupG (process_query (update_global g k sd) rest) key
    exact le_trans (lookupG_update_mono g k key sd)
      (lookupG_process_mono rest (update_global g k sd) key)

/-- With pairwise-distinct configuration keys, one processed query adds
exactly each configuration's step result onto its entry. -/
theorem lookupG_process_query :
    ∀ (updates : List (String × Multiset String))
      (g : List (String × Multiset String)),
      (updates.map Prod.fst).Nodup →
      ∀ kv ∈ updates,
        lookupG (process_query g updates) kv.1 = lookupG g kv.1 + kv.2
  | [], g, _, kv, hkv => absurd hkv (List.not_mem_nil kv)
  | (k, sd) :: rest, g, hnd, kv, hkv => by
    simp only [List.map_cons, List.nodup_cons] at hnd
    rcases List.mem_cons.mp hkv with heq | hmem
    · subst heq
      show lookupG (process_query (update_global g k sd) rest) k =
        lookupG g k + sd
      rw [lookupG_process_of_not_mem rest (update_global g k sd) k hnd.1]
      exact lookupG_update_self g k sd
    · have hk : kv.1 ≠ k := by
        intro hc
        exact hnd.1 (hc ▸ List.mem_map_of_mem Prod.fst hmem)
      show lookupG (process_query (update_global g k sd) rest) kv.1 =
        lookupG g kv.1 + kv.2
      rw [lookupG_process_query rest (update_global g k sd) hnd.2 kv hmem]
      rw [lookupG_update_other g k kv.1 sd hk]

/-! ## Facts about the page distribution -/

/-- Lemma: `getD` commutes with `map` at in-bounds indices. -/
theorem getD_map_of_lt {α β : Type} (f : α → β) (l : List α) (d : α)
    (d' : β) {i : ℕ} (h : i < l.length) :
    (l.map f).getD i d' = f (l.getD i d) := by
  rw [getD_eq_get _ _ (by simpa using h), getD_eq_get _ _ h]
  simp [List.get_eq_getElem, List.getElem_map]

theorem rawDist_length (m : ℕ) : (rawDist m).length = m := by
  simp [rawDist]

theorem distribution_function_length (m : ℕ) :
    (distribution_function m).length = m := by
  simp [distribution_function, rawDist]

/-- The raw exponential weights have a positive sum. -/
theorem rawDist_sum_pos (m : ℕ) (hm : 0 < m) : 0 < (rawDist m).sum := by
  apply List.sum_pos
  · intro x hx
    obtain ⟨i, _, rfl⟩ := List.mem_map.mp hx
    exact Real.exp_pos _
  · simp only [ne_eq, rawDist, List.map_eq_nil_iff, List.range_eq_nil]
    omega

/-- The normalised distribution sums to one over the active pages. -/
theorem distribution_function_sum (m : ℕ) (hm : 0 < m) :
    (distribution_function m).sum = 1 := by
  rw [distribution_function, sum_map_div,
    div_self (ne_of_gt (rawDist_sum_pos m hm))]

/-- Lemma: `getD` on `List.range` at an in-bounds index is the index itself. -/
theorem range_getD_lt (n : ℕ) {i : ℕ} (h : i < n) :
    (List.range n).getD i 0 = i := by
  rw [getD_eq_get _ _ (by simpa using h)]
  simp [List.get_eq_getElem, List.getElem_range]

/-- The raw weight at 0-based position `r` is `exp (-(r+1))`, i.e.
`exp (-rank)` for the 1-based rank `r + 1`. -/
theorem rawDist_getD (m : ℕ) {r : ℕ} (hr : r < m) :
    (rawDist m).getD r 0 = Real.exp (-((r : ℝ) + 1)) := by
  unfold rawDist
  rw [getD_map_of_lt _ _ 0 0 (by simpa using hr), range_getD_lt m hr]

/-- Entry `r` of the normalised distribution is `exp (-(r+1))` divided by
the normalising constant. -/
theorem distribution_function_getD (m : ℕ) {r : ℕ} (hr : r < m) :
    (distribution_function m).getD r 0 =
      Real.exp (-((r : ℝ) + 1)) / (rawDist m).sum := by
  rw [distribution_function,
    getD_map_of_lt _ _ 0 0 (by rw [rawDist_length]; exact hr),
    rawDist_getD m hr]

/-- Every entry of the normalised distribution is positive: each active
page has positive selection probability. -/
theorem distribution_function_getD_pos (m : ℕ) {r : ℕ} (hr : r < m) :
    0 < (distribution_function m).getD r 0 := by
  rw [distribution_function_getD m hr]
  exact div_pos (Real.exp_pos _) (rawDist_sum_pos m (Nat.zero_lt_of_lt hr))

/-! ## Derived facts about the whole sampler -/

/-- The pages' multiset is the multiset of their concatenation. -/
theorem pagesMS_eq_flatten :
    ∀ pages : List (List String),
      pagesMS pages = ((pages.flatten : List String) : Multiset String)
  | [] => rfl
  | p :: ps => by
    show (p : Multiset String) + pagesMS ps = _
    rw [pagesMS_eq_flatten ps, Multiset.coe_add, List.flatten_cons]

/-- The number of draws of one `rank_and_sample` invocation is the
minimum of `k` and the candidate-pool size. -/
theorem rank_and_sample_core_card (o : Oracles) (N k : ℕ)
    (ranked : List String) (hN : 0 < N) :
    Multiset.card (rank_and_sample_core o N k ranked) = min k ranked.length := by
  unfold rank_and_sample_core
  rw [Multiset.coe_card, sampleLoop_length]
  have : totalCount (paginate N ranked) = ranked.length := by
    unfold totalCount
    rw [← List.length_flatten, paginate_flatten hN]
  rw [this]
  simp

/-- The selection is a sub-multiset of the initial candidate pool. -/
theorem rank_and_sample_core_le (o : Oracles) (N k : ℕ)
    (ranked : List String) (hN : 0 < N) :
    rank_and_sample_core o N k ranked ≤ (ranked : Multiset String) := by
  unfold rank_and_sample_core
  obtain ⟨s, hs, hle⟩ := sampleLoop_subset o k 0 (paginate N ranked) []
  rw [hs]
  have : pagesMS (paginate N ranked) = (ranked : Multiset String) := by
    rw [pagesMS_eq_flatten, paginate_flatten hN]
  rw [this] at hle
  simpa using hle

/-! ## Facts about the resume arithmetic -/

/-- The clamped line count equals truncated subtraction of the header. -/
theorem controll_sum_eq (n : ℕ) : controll_sum n = ((n - 1 : ℕ) : ℤ) := by
  unfold controll_sum
  cases n with
  | zero => decide
  | succ n =>
    have h1 : ((n + 1 : ℕ) : ℤ) - 1 = (n : ℤ) := by push_cast; ring
    rw [h1, max_eq_right (Int.ofNat_nonneg n)]
    simp

/-! ## Claim theorems -/

/-- C1: at every draw iteration the categorical distribution handed to
`np.random.choice` is `distribution_function` of the CURRENT active-page
count: it has one entry per active page, sums to 1, its entry at
active-rank `r` (1-based rank `r + 1`) equals `exp (-(r+1))` divided by
the normalising sum — i.e. selection probability proportional to
`exp (-rank)` over the active pages only, renormalised as the active set
shrinks — every entry is positive, the drawn rank is a valid active rank
mapped through `active_indices` (not an original page index), and the
active set consists exactly of the non-empty pages. -/
theorem page_distribution_exp_rank (pages : List (List String))
    (h : activeIndices pages ≠ []) (o : Oracles) (t : ℕ) :
    (pageDist pages).length = activeCount pages ∧
    (pageDist pages).sum = 1 ∧
    (∀ r, r < activeCount pages →
      (pageDist pages).getD r 0 =
        Real.exp (-((r : ℝ) + 1)) / (rawDist (activeCount pages)).sum ∧
      0 < (pageDist pages).getD r 0) ∧
    chosenRank o t pages < activeCount pages ∧
    chosenPageIdx o t pages ∈ activeIndices pages ∧
    (∀ i, i ∈ activeIndices pages ↔ i < pages.length ∧ pages.getD i [] ≠ []) := by
  have hm : 0 < activeCount pages := List.length_pos.mpr h
  refine ⟨distribution_function_length _, distribution_function_sum _ hm,
    fun r hr => ⟨distribution_function_getD _ hr,
      distribution_function_getD_pos _ hr⟩,
    chosenRank_lt h o t, chosenPageIdx_mem h o t, fun i => mem_activeIndices⟩

/-- Witness for C1 at the concrete page state `[[A], [], [B]]`. -/
theorem page_distribution_exp_rank_witness :
    activeIndices [["A"], [], ["B"]] ≠ [] ∧
    (pageDist [["A"], [], ["B"]]).sum = 1 ∧
    chosenPageIdx ⟨fun _ => 1, fun _ => 0⟩ 0 [["A"], [], ["B"]] ∈
      activeIndices [["A"], [], ["B"]] :=
  ⟨by decide,
    (page_distribution_exp_rank [["A"], [], ["B"]] (by decide)
      ⟨fun _ => 1, fun _ => 0⟩ 0).2.1,
    (page_distribution_exp_rank [["A"], [], ["B"]] (by decide)
      ⟨fun _ => 1, fun _ => 0⟩ 0).2.2.2.2.1⟩

/-- C3: the number of draws of one `rank_and_sample` invocation is at
most `k` and equals `min k (pool size)`: exactly `k` unless the pool is
exhausted first, and the loop ends normally (returns a value) when the
active-page set empties early. -/
theorem draw_count_bounded (o : Oracles) (N k : ℕ) (ranked : List String)
    (hN : 0 < N) :
    Multiset.card (rank_and_sample_core o N k ranked) ≤ k ∧
    Multiset.card (rank_and_sample_core o N k ranked) = min k ranked.length := by
  have h := rank_and_sample_core_card o N k ranked hN
  exact ⟨by rw [h]; exact Nat.min_le_left _ _, h⟩

/-- Witness for C3: three draws from a three-candidate pool with `N = 2`,
`k = 3`. -/
theorem draw_count_bounded_witness :
    0 < 2 ∧
    Multiset.card
      (rank_and_sample_core ⟨fun _ => 0, fun _ => 0⟩ 2 3 ["A", "B", "C"]) ≤ 3 ∧
    Multiset.card
      (rank_and_sample_core ⟨fun _ => 0, fun _ => 0⟩ 2 3 ["A", "B", "C"]) =
      min 3 (["A", "B", "C"] : List String).length :=
  ⟨by decide,
    draw_count_bounded ⟨fun _ => 0, fun _ => 0⟩ 2 3 ["A", "B", "C"] (by decide)⟩

/-- C4: sampling is without replacement within one invocation — every
candidate id occurs in the SelectionResult at most as often as it occurs
across all pages at the start of sampling, and those pages hold exactly
the ranked candidate pool. -/
theorem without_replacement (o : Oracles) (N k : ℕ) (ranked : List String)
    (hN : 0 < N) :
    (∀ id : String,
      (rank_and_sample_core o N k ranked).count id ≤
        (pagesMS (paginate N ranked)).count id) ∧
    pagesMS (paginate N ranked) = (ranked : Multiset String) := by
  have hle := rank_and_sample_core_le o N k ranked hN
  have hpg : pagesMS (paginate N ranked) = (ranked : Multiset String) := by
    rw [pagesMS_eq_flatten, paginate_flatten hN]
  refine ⟨fun id => ?_, hpg⟩
  rw [hpg]
  exact Multiset.count_le_of_le id hle

/-- Witness for C4: with a duplicated id in the pool, multiplicities stay
within the pool's. -/
theorem without_replacement_witness :
    0 < 1 ∧
    ∀ id : String,
      (rank_and_sample_core ⟨fun _ => 0, fun _ => 0⟩ 1 3 ["A", "B", "A"]).count id ≤
        (pagesMS (paginate 1 ["A", "B", "A"])).count id :=
  ⟨by decide,
    (without_replacement ⟨fun _ => 0, fun _ => 0⟩ 1 3 ["A", "B", "A"]
      (by decide)).1⟩

/-- C9: when the page size covers the whole candidate pool there is
exactly one page, the page distribution is the point mass `[1]` on it,
and sampling is without replacement from that single page, stopping once
it is exhausted (`min k (pool size)` draws). -/
theorem single_page_degenerate (o : Oracles) (N k : ℕ) (ranked : List String)
    (h0 : 0 < ranked.length) (hN : ranked.length ≤ N) :
    paginate N ranked = [ranked] ∧
    distribution_function 1 = [1] ∧
    Multiset.card (rank_and_sample_core o N k ranked) = min k ranked.length ∧
    rank_and_sample_core o N k ranked ≤ (ranked : Multiset String) := by
  have hNpos : 0 < N := lt_of_lt_of_le h0 hN
  refine ⟨paginate_single ranked h0 hN, ?_,
    rank_and_sample_core_card o N k ranked hNpos,
    rank_and_sample_core_le o N k ranked hNpos⟩
  have hraw : rawDist 1 = [Real.exp (-1)] := by
    norm_num [rawDist, List.range_succ]
  rw [distribution_function, hraw]
  norm_num [div_self (Real.exp_ne_zero (-1))]

/-- Witness for C9: two candidates, page size three, five requested
draws. -/
theorem single_page_degenerate_witness :
    0 < (["A", "B"] : List String).length ∧
    (["A", "B"] : List String).length ≤ 3 ∧
    paginate 3 ["A", "B"] = [["A", "B"]] ∧
    Multiset.card (rank_and_sample_core ⟨fun _ => 0, fun _ => 0⟩ 3 5 ["A", "B"]) =
      min 5 (["A", "B"] : List String).length :=
  ⟨by decide, by decide,
    (single_page_degenerate ⟨fun _ => 0, fun _ => 0⟩ 3 5 ["A", "B"]
      (by decide) (by decide)).1,
    (single_page_degenerate ⟨fun _ => 0, fun _ => 0⟩ 3 5 ["A", "B"]
      (by decide) (by decide)).2.2.1⟩

/-- C2 (code bug): two runs with the same candidates, configuration
(`N = 2`, `k = 1`) and the same `npChoice` stream — the only stream
`np.random.seed` influences — but different `pyChoice` streams, i.e.
different ambient states of Python's global `random` module, which
`rank_and_sample` consults at line 218 (`random.choice(page)`) and which
no seed in the code ever sets.  The two SelectionResults differ, so the
output is not a function of (query, configuration, seed) alone. -/
theorem selection_not_seed_deterministic :
    rank_and_sample_core ⟨fun _ => 0, fun _ => 0⟩ 2 1 ["A", "B"] =
      ({"A"} : Multiset String) ∧
    rank_and_sample_core ⟨fun _ => 0, fun _ => 1⟩ 2 1 ["A", "B"] =
      ({"B"} : Multiset String) ∧
    rank_and_sample_core ⟨fun _ => 0, fun _ => 0⟩ 2 1 ["A", "B"] ≠
      rank_and_sample_core ⟨fun _ => 0, fun _ => 1⟩ 2 1 ["A", "B"] :=
  ⟨by decide, by decide, by decide⟩

/-- C5: the resume offset is derived only from configuration index 0's
log — the clamped data-row count (lines minus header) of that log, zero
when it is missing or when the results directory does not exist,
independent of every other configuration's log — and the run then
processes the contiguous range starting at that offset whose length is at
most `batch` (ending exactly at `offset + batch` when enough queries
remain). -/
theorem resume_offset_from_config_zero (logs : ℕ → Option ℕ)
    (numSettings batch numQueries : ℕ) (hns : 0 < numSettings) :
    resume_offset true logs numSettings =
      (match logs 0 with
       | some n => ((n - 1 : ℕ) : ℤ)
       | none => 0) ∧
    resume_offset false logs numSettings = 0 ∧
    (∀ logs' : ℕ → Option ℕ, logs' 0 = logs 0 →
      resume_offset true logs' numSettings =
        resume_offset true logs numSettings) ∧
    (batch_range (resume_offset true logs numSettings).toNat batch
        numQueries).1 = (resume_offset true logs numSettings).toNat ∧
    (batch_range (resume_offset true logs numSettings).toNat batch
        numQueries).2 - (resume_offset true logs numSettings).toNat ≤ batch ∧
    ((resume_offset true logs numSettings).toNat + batch ≤ numQueries →
      batch_range (resume_offset true logs numSettings).toNat batch
          numQueries =
        ((resume_offset true logs numSettings).toNat,
          (resume_offset true logs numSettings).toNat + batch)) := by
  refine ⟨?_, ?_, ?_, rfl, ?_, ?_⟩
  · unfold resume_offset health_check
    rw [if_pos ⟨rfl, hns⟩]
    cases hl : logs 0 with
    | some n => simp [controll_sum_eq]
    | none => simp
  · unfold resume_offset health_check
    simp
  · intro logs' hl
    unfold resume_offset health_check
    rw [hl]
  · simp only [batch_range]
    omega
  · intro h
    simp [batch_range, Nat.min_eq_left h]

/-- Witness for C5, the spec's resume example: a configuration-0 log with
2,501 lines (2,500 data rows plus the header) and batch 40,000 resumes at
2,500 and processes `[2500, 42500)`. -/
theorem resume_offset_from_config_zero_witness :
    0 < 1 ∧
    resume_offset true (fun i => if i = 0 then some 2501 else none) 1 =
      2500 ∧
    batch_range 2500 40000 50000 = (2500, 42500) :=
  ⟨by decide,
    (resume_offset_from_config_zero
      (fun i => if i = 0 then some 2501 else none) 1 40000 50000
      (by decide)).1,
    by decide⟩

/-- C6: the ranking score of candidate `i` is the weighted sum
`w_sim * max 0 (1 - distance) + w_year * year_scaled +
w_citation * citation_scaled + w_gov * gov_scaled`, where the similarity
is clamped at zero and the citation column passes through `log (1 + x)`
before the global scaling transform. -/
theorem score_formula (sc : Scaler) (r : RawResults) (w : Weights) (i : ℕ)
    (hi : i < r.ids.length)
    (hd : r.distances.length = r.ids.length)
    (hy : r.years.length = r.ids.length)
    (hc : r.n_citations.length = r.ids.length)
    (hg : r.gov_scores.length = r.ids.length) :
    (scoresOf w (prepare_candidates sc r)).getD i 0 =
      w.wSim * max 0 (1 - r.distances.getD i 0) +
        w.wYear * sc.fYear (r.years.getD i 0) +
        w.wCit * sc.fCit (Real.log (1 + r.n_citations.getD i 0)) +
        w.wGov * sc.fGov (r.gov_scores.getD i 0) := by
  simp only [scoresOf, prepare_candidates]
  rw [getD_map_of_lt _ _ 0 0 (by simpa using hi)]
  rw [range_getD_lt r.ids.length hi]
  rw [getD_map_of_lt (fun d => max 0 (1 - d)) r.distances 0 0 (hd ▸ hi)]
  rw [getD_map_of_lt sc.fYear r.years 0 0 (hy ▸ hi)]
  rw [getD_map_of_lt (fun c => sc.fCit (Real.log (1 + c))) r.n_citations 0 0
    (hc ▸ hi)]
  rw [getD_map_of_lt sc.fGov r.gov_scores 0 0 (hg ▸ hi)]

/-- Witness for C6 on a one-candidate retrieval result with identity
scaling. -/
theorem score_formula_witness :
    0 < (["x"] : List String).length ∧
    (scoresOf ⟨1, 1, 1, 1⟩
        (prepare_candidates ⟨fun y => y, fun y => y, fun y => y⟩
          ⟨["x"], [0], [2000], [5], [1]⟩)).getD 0 0 =
      1 * max 0 (1 - 0) + 1 * 2000 + 1 * Real.log (1 + 5) + 1 * 1 :=
  ⟨by decide,
    score_formula ⟨fun y => y, fun y => y, fun y => y⟩
      ⟨["x"], [0], [2000], [5], [1]⟩ ⟨1, 1, 1, 1⟩ 0
      (by decide) rfl rfl rfl rfl⟩

/-- C7 counterexample: the descending sort of line 195 is not stable.
`np.argsort` with its default quicksort only guarantees a sorted
permutation; over the score list `[0, 0]` the admissible result `[1, 0]`
sorts descendingly yet places the two equal-score candidates in reversed
retrieval order. -/
theorem argsort_stability_fails :
    IsArgsortDesc [0, 0] [1, 0] ∧ ¬ StableDesc [0, 0] [1, 0] := by
  constructor
  · constructor
    · have hlen : ([0, 0] : List ℝ).length = 2 := rfl
      rw [hlen]
      decide
    · simp [List.sorted_cons]
  · intro hst
    have h01 := hst 0 1 (by norm_num) (by norm_num) rfl
    simp only [List.getD_cons_zero, List.getD_cons_succ] at h01
    omega

/-- C7 (amended): candidates are sorted by score in descending order —
the ranked ids are a permutation of the retrieved ids and the score
sequence along the ranking is non-increasing — but the relative order of
equal-score candidates is unspecified (NumPy's default quicksort is not
stable). -/
theorem argsort_desc_order (w : Weights) (c : Prepared) (idx : List ℕ)
    (h : IsArgsortDesc (scoresOf w c) idx) :
    (ranked_ids c idx).Perm c.ids ∧
    (rankedScores w c idx).Sorted (· ≥ ·) ∧
    (∀ p q : ℕ, p ≤ q → q < idx.length →
      (rankedScores w c idx).getD q 0 ≤ (rankedScores w c idx).getD p 0) := by
  obtain ⟨hperm, hsort⟩ := h
  have hlen : (scoresOf w c).length = c.ids.length := by simp [scoresOf]
  refine ⟨?_, hsort, ?_⟩
  · have h1 : (idx.map fun i => c.ids.getD i "").Perm
        ((List.range (scoresOf w c).length).map fun i => c.ids.getD i "") :=
      hperm.map _
    rw [hlen, range_map_getD c.ids ""] at h1
    exact h1
  · intro p q hpq hq
    rcases eq_or_lt_of_le hpq with rfl | hlt
    · exact le_rfl
    · have hq' : q < (rankedScores w c idx).length := by
        simpa [rankedScores] using hq
      have hp' : p < (rankedScores w c idx).length := lt_trans hlt hq'
      rw [getD_eq_get _ _ hq', getD_eq_get _ _ hp']
      exact List.Sorted.rel_get_of_lt hsort hlt

/-- Witness for the amended C7 on a two-candidate instance ranked by
similarity alone. -/
theorem argsort_desc_order_witness :
    IsArgsortDesc
      (scoresOf ⟨1, 0, 0, 0⟩ ⟨["x", "y"], [1, 0], [0, 0], [0, 0], [0, 0]⟩)
      [0, 1] ∧
    (ranked_ids ⟨["x", "y"], [1, 0], [0, 0], [0, 0], [0, 0]⟩ [0, 1]).Perm
      ["x", "y"] := by
  have h : IsArgsortDesc
      (scoresOf ⟨1, 0, 0, 0⟩ ⟨["x", "y"], [1, 0], [0, 0], [0, 0], [0, 0]⟩)
      [0, 1] := by
    constructor
    · rw [show (scoresOf ⟨1, 0, 0, 0⟩
          ⟨["x", "y"], [1, 0], [0, 0], [0, 0], [0, 0]⟩).length = 2 from by
            simp [scoresOf]]
      decide
    · norm_num [scoresOf, List.range_succ, List.sorted_cons]
  exact ⟨h, (argsort_desc_order ⟨1, 0, 0, 0⟩
    ⟨["x", "y"], [1, 0], [0, 0], [0, 0], [0, 0]⟩ [0, 1] h).1⟩

/-- C8: within one run the global distribution is an additive
accumulator — processing one query adds exactly each configuration's
step result onto that configuration's entry, entries never decrease over
any update sequence — and every flush writes the full snapshot of all
configurations, ignoring (not appending to) the previous file content. -/
theorem global_distribution_accumulator
    (g updates : List (String × Multiset String))
    (hnd : (updates.map Prod.fst).Nodup) :
    (∀ kv ∈ updates,
      lookupG (process_query g updates) kv.1 = lookupG g kv.1 + kv.2) ∧
    (∀ key, lookupG g key ≤ lookupG (process_query g updates) key) ∧
    (∀ (old old' : Option (List (String × Multiset String)))
        (d : List (String × Multiset String)),
      save_distribution old d = some d ∧
        save_distribution old d = save_distribution old' d) :=
  ⟨lookupG_process_query updates g hnd,
    fun key => lookupG_process_mono updates g key,
    fun _ _ _ => ⟨rfl, rfl⟩⟩

/-- Witness for C8 on two configurations updating an empty accumulator. -/
theorem global_distribution_accumulator_witness :
    (([("a", ({"p"} : Multiset String)), ("b", {"q"})].map Prod.fst).Nodup) ∧
    ∀ kv ∈ [("a", ({"p"} : Multiset String)), ("b", {"q"})],
      lookupG (process_query []
          [("a", ({"p"} : Multiset String)), ("b", {"q"})]) kv.1 =
        lookupG [] kv.1 + kv.2 :=
  ⟨by decide,
    (global_distribution_accumulator []
      [("a", ({"p"} : Multiset String)), ("b", {"q"})] (by decide)).1⟩

/-- C10: `health_check` never reports a negative progress count: the
clamped entry is non-negative for every possible line count, the raw
count for a zero-line file is `-1` but the reported value is `0`, and the
derived resume offset is non-negative for every base-directory state, log
contents and configuration count. -/
theorem progress_count_nonneg :
    (∀ n : ℕ, 0 ≤ controll_sum n) ∧
    (((0 : ℕ) : ℤ) - 1 = -1 ∧ controll_sum 0 = 0) ∧
    (∀ (b : Bool) (logs : ℕ → Option ℕ) (ns : ℕ),
      0 ≤ resume_offset b logs ns) := by
  refine ⟨fun n => le_max_left _ _, ⟨by norm_num, by decide⟩, ?_⟩
  intro b logs ns
  unfold resume_offset health_check
  by_cases h : (b = true) ∧ 0 < ns
  · rw [if_pos h]
    rcases hl : logs 0 with _ | n <;>
      simp [hl, controll_sum, le_max_left]
  · rw [if_neg h]
    simp

end SciSim
